import Mathlib

/-!
Shallow embedding of `src/FlagStore.js` (a dual-layer feature-flag store:
real flags plus local debug overrides) and proofs about its operations.

JavaScript objects are modelled as association lists `List (String × JSVal)`
(own enumerable properties in insertion order); JavaScript values as the
inductive `JSVal`, with JS truthiness and property access made explicit.
The store closure's two captured variables `flags` and `flagOverrides`
become the two fields of the structure `FlagStore`; `flagOverrides` starts
as `undefined`, modelled as `Option`.

Aliasing-sensitive facts (defensive copies vs. returning an internal
reference) cannot be observed in a plain value semantics, so a second,
heap-based model `HStore` is given further below: objects live at `Nat`
addresses in an explicit heap, and the store keeps addresses of its two
internal objects, mirroring JS reference semantics.
-/

set_option autoImplicit false

namespace FlagStoreSpec

/-- A JavaScript value, to the extent the flag store inspects values:
`undefined`, `null`, booleans, numbers (integers suffice here; no flag-store
branch does arithmetic), strings, and objects as ordered own-property lists. -/
inductive JSVal : Type where
  | undefined : JSVal
  | null : JSVal
  | boolean : Bool → JSVal
  | number : Int → JSVal
  | string : String → JSVal
  | object : List (String × JSVal) → JSVal

/-- A JavaScript object: its own enumerable properties, in insertion order. -/
abbrev JSObj : Type := List (String × JSVal)

/-- JavaScript truthiness: `undefined`, `null`, `false`, `0`, and `""` are
falsy; every object is truthy. -/
def truthy : JSVal → Bool
  | .undefined => false
  | .null => false
  | .boolean b => b
  | .number n => n != 0
  | .string s => s != ""
  | .object _ => true

/-- The `Object.prototype.hasOwnProperty.call(o, k)` check used by
`utils.objectHasOwnProperty`. -/
def hasOwn (o : JSObj) (k : String) : Bool :=
  o.any (fun e => e.1 == k)

/-- Own-property read `o[k]`: the value of the first entry with key `k`,
or `undefined` when absent. -/
def getOwn (o : JSObj) (k : String) : JSVal :=
  match o.find? (fun e => e.1 == k) with
  | some e => e.2
  | none => .undefined

/-- Property assignment `o[k] = v`: overwrite the value at an existing key
in place (keeping its position), else append the new property at the end —
exactly JS assignment on an object's own properties. -/
def setProp : JSObj → String → JSVal → JSObj
  | [], k, v => [(k, v)]
  | e :: t, k, v => if e.1 == k then (k, v) :: t else e :: setProp t k v

/-- Property deletion `delete o[k]`. -/
def delProp (o : JSObj) (k : String) : JSObj :=
  o.filter (fun e => e.1 != k)

/-- Object spread `{ ...o }`: a fresh object with `o`'s properties copied
in enumeration order (later duplicates overwrite earlier ones). -/
def spread (o : JSObj) : JSObj :=
  o.foldl (fun r e => setProp r e.1 e.2) []

/-- The key list of an object (`Object.keys`, ignoring dedup, which the
store only ever compares against length zero). -/
def keys (o : JSObj) : List String :=
  o.map Prod.fst

/-- Property access `v.p` on an arbitrary value, as the store performs it on
flag records (`flags[key].deleted`): an own-property read on objects,
`undefined` on primitives. The source only dereferences values it has
already checked to be truthy, so the throwing `null`/`undefined` cases are
never reached. -/
def getProp : JSVal → String → JSVal
  | .object o, k => getOwn o k
  | _, _ => .undefined

/-- The state captured by the `FlagStore()` closure: the real-flag object
`flags` (initialised to `{}`) and the lazily created override object
`flagOverrides` (initialised to `undefined`, here `none`). -/
structure FlagStore : Type where
  flags : JSObj
  flagOverrides : Option JSObj

/-- A freshly constructed store: `flags = {}`, `flagOverrides = undefined`. -/
def FlagStore.init : FlagStore :=
  ⟨[], none⟩

/-- The real-flag branch of `get` (source lines 30–34): return `flags[key]`
when `flags` has own property `key`, `flags[key]` is truthy and
`flags[key].deleted` is not truthy; otherwise `null`. The leading `flags &&`
guard of the source is omitted because `flags` is always an object in this
model, and objects are truthy. -/
def realLookup (flags : JSObj) (key : String) : JSVal :=
  if hasOwn flags key && truthy (getOwn flags key)
      && !truthy (getProp (getOwn flags key) "deleted") then
    getOwn flags key
  else
    .null

/-- `get(key)`: overrides first (`flagOverrides &&
utils.objectHasOwnProperty(flagOverrides, key) && flagOverrides[key]`),
then the real-flag branch, else `null`. -/
def FlagStore.get (s : FlagStore) (key : String) : JSVal :=
  match s.flagOverrides with
  | some ov =>
    if hasOwn ov key && truthy (getOwn ov key) then getOwn ov key
    else realLookup s.flags key
  | none => realLookup s.flags key

/-- The body of both `for`-loops of `getFlagsWithOverrides`: resolve the
entry's key through `get` and store the result when truthy. -/
def addResolved (s : FlagStore) (r : JSObj) (e : String × JSVal) : JSObj :=
  let flag := s.get e.1
  if truthy flag then setProp r e.1 flag else r

/-- `getFlagsWithOverrides()`: start from `{}`, add `get(key)` for every key
of `flags`, then for every key of `flagOverrides` (when present). -/
def FlagStore.getFlagsWithOverrides (s : FlagStore) : JSObj :=
  let result := s.flags.foldl (addResolved s) []
  match s.flagOverrides with
  | some ov => ov.foldl (addResolved s) result
  | none => result

/-- `setFlags(newFlags)`: `flags = { ...newFlags }`. -/
def FlagStore.setFlags (s : FlagStore) (newFlags : JSObj) : FlagStore :=
  { s with flags := spread newFlags }

/-- `setOverride(key, value)`: lazily allocate `flagOverrides`, then
`flagOverrides[key] = { value }`. -/
def FlagStore.setOverride (s : FlagStore) (key : String) (value : JSVal) : FlagStore :=
  let ov := match s.flagOverrides with
    | none => ([] : JSObj)
    | some ov => ov
  { s with flagOverrides := some (setProp ov key (.object [("value", value)])) }

/-- `removeOverride(key)`: return unchanged when `flagOverrides` is absent
or `flagOverrides[key]` is falsy; else delete the property, and reset
`flagOverrides` to `undefined` when no keys remain. -/
def FlagStore.removeOverride (s : FlagStore) (key : String) : FlagStore :=
  match s.flagOverrides with
  | none => s
  | some ov =>
    if !truthy (getOwn ov key) then s
    else
      let ov' := delProp ov key
      if (keys ov').length == 0 then { s with flagOverrides := none }
      else { s with flagOverrides := some ov' }

/-- `clearAllOverrides()`: return `({}, unchanged state)` when no overrides
exist; else return a spread copy of `flagOverrides` and reset it to
`undefined`. The returned object comes first in the pair. -/
def FlagStore.clearAllOverrides (s : FlagStore) : JSObj × FlagStore :=
  match s.flagOverrides with
  | none => ([], s)
  | some ov => (spread ov, { s with flagOverrides := none })

/-- `getFlags()`: the internal `flags` object (no copy in the source). -/
def FlagStore.getFlags (s : FlagStore) : JSObj :=
  s.flags

/-- `getFlagOverrides()`: `flagOverrides || {}`. -/
def FlagStore.getFlagOverrides (s : FlagStore) : JSObj :=
  match s.flagOverrides with
  | none => []
  | some ov => ov

/-- The store states reachable from a fresh `FlagStore()` through its
mutating public operations (the read-only operations do not change state). -/
inductive Reachable : FlagStore → Prop where
  | init : Reachable FlagStore.init
  | setFlags (s : FlagStore) (m : JSObj) :
      Reachable s → Reachable (s.setFlags m)
  | setOverride (s : FlagStore) (k : String) (v : JSVal) :
      Reachable s → Reachable (s.setOverride k v)
  | removeOverride (s : FlagStore) (k : String) :
      Reachable s → Reachable (s.removeOverride k)
  | clearAllOverrides (s : FlagStore) :
      Reachable s → Reachable (s.clearAllOverrides).2

/-- An object with pairwise distinct keys (as every real JS object has). -/
def NodupKeys (o : JSObj) : Prop :=
  (keys o).Nodup

/-- The shape invariant of the override layer: absent, or a non-empty
object with distinct keys whose every record is a `{ value }` wrapper. -/
def OverrideWF : Option JSObj → Prop
  | none => True
  | some ov => ov ≠ [] ∧ NodupKeys ov ∧ ∀ e ∈ ov, ∃ v, e.2 = JSVal.object [("value", v)]

/-- The invariants maintained by the store across its public operations. -/
structure StoreInv (s : FlagStore) : Prop where
  flagsNodup : NodupKeys s.flags
  ovWF : OverrideWF s.flagOverrides

/-- The override layer holds key `k` (Boolean form, `false` when the
override object is absent). -/
def ovHas (s : FlagStore) (k : String) : Bool :=
  match s.flagOverrides with
  | none => false
  | some ov => hasOwn ov k

/-- No truthy override record is installed for key `k`: the condition under
which `get` falls through to the real-flag branch. -/
def OvMiss (s : FlagStore) (k : String) : Prop :=
  ∀ ov, s.flagOverrides = some ov → (hasOwn ov k && truthy (getOwn ov k)) = false

/-- Two store states are observationally identified when they agree on the
real-flag object and on the (possibly empty) override map as a caller sees
it through `getFlagOverrides` — this equates an absent override object with
an empty one and nothing else. -/
def ObsEquiv (s₁ s₂ : FlagStore) : Prop :=
  s₁.flags = s₂.flags ∧ s₁.getFlagOverrides = s₂.getFlagOverrides

/-- A sample flag object: one live flag `a` and one tombstoned flag `b`
(the scenario used by the spec). -/
def sampleFlags : JSObj :=
  [("a", JSVal.object [("value", JSVal.number 1)]),
   ("b", JSVal.object [("value", JSVal.number 2), ("deleted", JSVal.boolean true)])]

/-- A sample store holding `sampleFlags` and no overrides. -/
def sampleStore : FlagStore :=
  FlagStore.init.setFlags sampleFlags

/-- A sample store in which key `a` additionally carries an override. -/
def c7Base : FlagStore :=
  sampleStore.setOverride "a" (JSVal.number 10)

/-- The integer under the `value` property of a JS value, `0` otherwise
(used only to tell concrete results apart). -/
def valueAsInt (x : JSVal) : Int :=
  match getProp x "value" with
  | .number n => n
  | _ => 0

/-! ### Heap model

The pure model above uses value semantics, so it cannot observe whether a
map handed to a caller aliases the store's internal objects. The heap model
makes reference semantics explicit: JS objects live at `Nat` addresses in a
heap, the closure's `flags` and `flagOverrides` variables hold an address
and an optional address, and every object literal (`{}`, `{ ...o }`, the
`result` of `getFlagsWithOverrides`) allocates a fresh address, exactly as
in JS. A caller mutating an object it was handed writes through that
object's address. -/

/-- Read the object at address `a` (most recent write wins). -/
def readH (h : List (Nat × JSObj)) (a : Nat) : JSObj :=
  match h.find? (fun e => e.1 == a) with
  | some e => e.2
  | none => []

/-- The `FlagStore()` closure in heap form: an allocation counter, the heap,
and the addresses held by the two captured variables. -/
structure HStore : Type where
  next : Nat
  mem : List (Nat × JSObj)
  flagsAddr : Nat
  overridesAddr : Option Nat

/-- A fresh `FlagStore()`: one allocated empty `flags` object, overrides
absent. -/
def HStore.init : HStore :=
  ⟨1, [(0, [])], 0, none⟩

/-- Allocate a fresh object, returning its address. -/
def HStore.alloc (s : HStore) (o : JSObj) : Nat × HStore :=
  (s.next, { s with next := s.next + 1, mem := (s.next, o) :: s.mem })

/-- Overwrite the object at address `a` (JS in-place mutation). -/
def HStore.write (s : HStore) (a : Nat) (o : JSObj) : HStore :=
  { s with mem := (a, o) :: s.mem }

/-- The pure store state a heap store denotes: dereference both captured
variables. -/
def HStore.deref (s : HStore) : FlagStore :=
  ⟨readH s.mem s.flagsAddr, s.overridesAddr.map (readH s.mem)⟩

/-- `get(key)` in the heap model: read through the references and resolve
exactly as the pure `get` does. -/
def HStore.getH (s : HStore) (key : String) : JSVal :=
  s.deref.get key

/-- `setFlags(newFlags)` in the heap model: `flags = { ...newFlags }`
allocates a fresh spread copy of the caller's object and repoints `flags`
at it. -/
def HStore.setFlagsH (s : HStore) (newFlagsAddr : Nat) : HStore :=
  let p := s.alloc (spread (readH s.mem newFlagsAddr))
  { p.2 with flagsAddr := p.1 }

/-- `setOverride(key, value)` in the heap model: lazily allocate the
override object, then assign into it in place. -/
def HStore.setOverrideH (s : HStore) (key : String) (value : JSVal) : HStore :=
  match s.overridesAddr with
  | some a => s.write a (setProp (readH s.mem a) key (JSVal.object [("value", value)]))
  | none =>
    let p := s.alloc []
    let s' := { p.2 with overridesAddr := some p.1 }
    s'.write p.1 (setProp (readH s'.mem p.1) key (JSVal.object [("value", value)]))

/-- `getFlagOverrides()` in the heap model: `flagOverrides || {}` — the
internal address itself when overrides exist, else a freshly allocated
empty object. -/
def HStore.getFlagOverridesH (s : HStore) : Nat × HStore :=
  match s.overridesAddr with
  | some a => (a, s)
  | none => s.alloc []

/-- `getFlagsWithOverrides()` in the heap model: build the resolved map
(pure computation on the dereferenced state) in a freshly allocated
`result` object. -/
def HStore.getFlagsWithOverridesH (s : HStore) : Nat × HStore :=
  s.alloc s.deref.getFlagsWithOverrides

/-- `clearAllOverrides()` in the heap model: return a fresh (possibly
empty) spread copy and drop the internal reference. -/
def HStore.clearAllOverridesH (s : HStore) : Nat × HStore :=
  match s.overridesAddr with
  | none => s.alloc []
  | some a =>
    let p := s.alloc (spread (readH s.mem a))
    (p.1, { p.2 with overridesAddr := none })

/-- A caller mutating a map it was handed: add or replace an entry. -/
def HStore.callerSet (s : HStore) (a : Nat) (k : String) (v : JSVal) : HStore :=
  s.write a (setProp (readH s.mem a) k v)

/-- A caller mutating a map it was handed: delete an entry. -/
def HStore.callerDel (s : HStore) (a : Nat) (k : String) : HStore :=
  s.write a (delProp (readH s.mem a) k)

/-- Addresses held by the store are allocated (strictly below `next`). -/
def HWF (s : HStore) : Prop :=
  s.flagsAddr < s.next ∧ ∀ a, s.overridesAddr = some a → a < s.next

/-- A heap store with a single override on `a`, used to demonstrate the
aliasing of `getFlagOverrides`. -/
def aliasDemoStore : HStore :=
  HStore.init.setOverrideH "a" (JSVal.number 1)

/-- The same store after the caller deletes key `a` from the very map that
`getFlagOverrides` handed it. -/
def aliasDemoMutated : HStore :=
  aliasDemoStore.callerDel (aliasDemoStore.getFlagOverridesH).1 "a"

/-! ### Basic lemmas about the object model -/

theorem hasOwn_iff_mem_keys (o : JSObj) (k : String) :
    hasOwn o k = true ↔ k ∈ keys o := by
  simp [hasOwn, keys, List.any_eq_true, List.mem_map]

theorem hasOwn_nil (k : String) : hasOwn [] k = false := rfl

theorem hasOwn_cons (e : String × JSVal) (t : JSObj) (k : String) :
    hasOwn (e :: t) k = (e.1 == k || hasOwn t k) := by
  simp [hasOwn]

theorem getOwn_nil (k : String) : getOwn [] k = .undefined := rfl

theorem getOwn_cons (e : String × JSVal) (t : JSObj) (k : String) :
    getOwn (e :: t) k = if e.1 == k then e.2 else getOwn t k := by
  simp only [getOwn, List.find?]
  by_cases h : e.1 == k <;> simp [h]

theorem getOwn_eq_undefined_of_hasOwn_false {o : JSObj} {k : String}
    (h : hasOwn o k = false) : getOwn o k = .undefined := by
  induction o with
  | nil => rfl
  | cons e t ih =>
    rw [hasOwn_cons] at h
    rcases Bool.or_eq_false_iff.mp h with ⟨h1, h2⟩
    rw [getOwn_cons, h1, if_neg (by simp)]
    exact ih h2

theorem hasOwn_append (a b : JSObj) (k : String) :
    hasOwn (a ++ b) k = (hasOwn a k || hasOwn b k) := by
  simp [hasOwn]

theorem hasOwn_setProp (o : JSObj) (k : String) (v : JSVal) (k' : String) :
    hasOwn (setProp o k v) k' = (k == k' || hasOwn o k') := by
  induction o with
  | nil => simp [setProp, hasOwn_cons, hasOwn_nil, Bool.or_comm]
  | cons e t ih =>
    by_cases h : e.1 = k
    · simp [setProp, h, hasOwn_cons]
    · rw [setProp, if_neg (by simpa using h), hasOwn_cons, ih, hasOwn_cons]
      cases hek : (e.1 == k') <;> cases hkk : (k == k') <;> simp

theorem getOwn_setProp (o : JSObj) (k : String) (v : JSVal) (k' : String) :
    getOwn (setProp o k v) k' = if k == k' then v else getOwn o k' := by
  induction o with
  | nil => simp [setProp, getOwn_cons, getOwn_nil]
  | cons e t ih =>
    by_cases h : e.1 = k
    · rw [setProp, if_pos (by simpa using h), getOwn_cons, getOwn_cons]
      by_cases h' : k = k'
      · simp [h']
      · simp [h', h]
    · rw [setProp, if_neg (by simpa using h), getOwn_cons, ih, getOwn_cons]
      by_cases h' : k = k'
      · have : ¬(e.1 = k') := by rw [← h']; exact h
        simp [h', this]
      · simp [h']

theorem setProp_ne_nil (o : JSObj) (k : String) (v : JSVal) :
    setProp o k v ≠ [] := by
  cases o with
  | nil => simp [setProp]
  | cons e t =>
    rw [setProp]
    split <;> simp

theorem mem_setProp {o : JSObj} {k : String} {v : JSVal} {e : String × JSVal}
    (h : e ∈ setProp o k v) : e ∈ o ∨ e = (k, v) := by
  induction o with
  | nil => simp [setProp] at h; right; exact h
  | cons e' t ih =>
    rw [setProp] at h
    split at h
    · rcases List.mem_cons.mp h with h | h
      · right; exact h
      · left; exact List.mem_cons_of_mem _ h
    · rcases List.mem_cons.mp h with h | h
      · left; simp [h]
      · rcases ih h with h | h
        · left; exact List.mem_cons_of_mem _ h
        · right; exact h

theorem keys_setProp (o : JSObj) (k : String) (v : JSVal) :
    keys (setProp o k v) = if hasOwn o k then keys o else keys o ++ [k] := by
  induction o with
  | nil => simp [setProp, keys, hasOwn_nil]
  | cons e t ih =>
    by_cases h : e.1 = k
    · simp [setProp, h, keys, hasOwn_cons]
    · rw [setProp, if_neg (by simpa using h), hasOwn_cons]
      simp only [keys, List.map_cons] at ih ⊢
      rw [ih]
      by_cases ht : hasOwn t k
      · simp [ht, h]
      · simp [ht, h]

theorem nodup_setProp {o : JSObj} (h : NodupKeys o) (k : String) (v : JSVal) :
    NodupKeys (setProp o k v) := by
  unfold NodupKeys at *
  rw [keys_setProp]
  by_cases ho : hasOwn o k
  · simpa [ho] using h
  · rw [if_neg ho]
    have hk : k ∉ keys o := fun hm => ho ((hasOwn_iff_mem_keys o k).mpr hm)
    simp [List.nodup_append, h, hk]

theorem keys_delProp (o : JSObj) (k : String) :
    keys (delProp o k) = (keys o).filter (fun x => x != k) := by
  induction o with
  | nil => rfl
  | cons e t ih =>
    simp only [delProp, keys, List.filter] at ih ⊢
    cases h : (e.1 != k) <;> simp [h, ih]

theorem hasOwn_delProp (o : JSObj) (k k' : String) :
    hasOwn (delProp o k) k' = (k' != k && hasOwn o k') := by
  induction o with
  | nil => simp [delProp, hasOwn_nil]
  | cons e t ih =>
    simp only [delProp] at ih ⊢
    by_cases he : e.1 = k
    · rw [List.filter_cons_of_neg (by simp [he]), ih, hasOwn_cons]
      by_cases hk : k' = k
      · simp [hk]
      · have hek : (e.1 == k') = false := by
          simp [he]
          exact fun hc => hk hc.symm
        simp [hek, hk]
    · rw [List.filter_cons_of_pos (by simp [he]), hasOwn_cons, ih, hasOwn_cons]
      by_cases hk : k' = k
      · subst hk
        simp [he]
      · have hkk : (k' != k) = true := by simp [hk]
        rw [hkk]
        simp

theorem getOwn_delProp_ne (o : JSObj) (k k' : String) (h : k' ≠ k) :
    getOwn (delProp o k) k' = getOwn o k' := by
  induction o with
  | nil => rfl
  | cons e t ih =>
    simp only [delProp] at ih ⊢
    by_cases he : e.1 = k
    · have hek : (e.1 == k') = false := by
        simp [he]
        exact fun hc => h hc.symm
      rw [List.filter_cons_of_neg (by simp [he]), ih, getOwn_cons, hek]
      simp
    · rw [List.filter_cons_of_pos (by simp [he]), getOwn_cons, getOwn_cons, ih]

theorem nodup_delProp {o : JSObj} (h : NodupKeys o) (k : String) :
    NodupKeys (delProp o k) := by
  unfold NodupKeys at *
  rw [keys_delProp]
  exact h.filter _

theorem mem_delProp {o : JSObj} {k : String} {e : String × JSVal}
    (h : e ∈ delProp o k) : e ∈ o :=
  List.mem_of_mem_filter h

theorem delProp_ne_nil_iff (o : JSObj) (k : String) :
    ((keys (delProp o k)).length == 0) = true ↔ delProp o k = [] := by
  constructor
  · intro h
    have : keys (delProp o k) = [] := List.length_eq_zero.mp (by simpa using h)
    cases hd : delProp o k with
    | nil => rfl
    | cons e t => rw [hd] at this; simp [keys] at this
  · intro h; rw [h]; rfl

theorem setProp_eq_append {o : JSObj} {k : String} (h : hasOwn o k = false) (v : JSVal) :
    setProp o k v = o ++ [(k, v)] := by
  induction o with
  | nil => rfl
  | cons e t ih =>
    rw [hasOwn_cons, Bool.or_eq_false_iff] at h
    rw [setProp, if_neg (by simp [h.1]), ih h.2]
    rfl

theorem spread_go (o : JSObj) : ∀ r : JSObj, NodupKeys o →
    (∀ k ∈ keys o, hasOwn r k = false) →
    o.foldl (fun r e => setProp r e.1 e.2) r = r ++ o := by
  induction o with
  | nil =>
    intro r _ _
    simp
  | cons e t ih =>
    intro r hnd hdis
    simp only [NodupKeys, keys, List.map_cons, List.nodup_cons] at hnd
    rw [List.foldl_cons, setProp_eq_append (hdis e.1 (by simp [keys]))]
    rw [ih (r ++ [(e.1, e.2)]) hnd.2 ?_]
    · simp
    · intro k hk
      have hke : k ≠ e.1 := fun hc => hnd.1 (hc ▸ hk)
      have hk' : k ∈ keys (e :: t) := by
        simp only [keys, List.map_cons]
        exact List.mem_cons_of_mem _ hk
      rw [hasOwn_append, hdis k hk', Bool.false_or]
      simp [hasOwn, hke.symm]

theorem spread_eq_of_nodup {o : JSObj} (h : NodupKeys o) : spread o = o := by
  have := spread_go o [] h (fun k _ => rfl)
  simpa [spread] using this

theorem nodup_foldl_setProp (o : JSObj) : ∀ r : JSObj, NodupKeys r →
    NodupKeys (o.foldl (fun r e => setProp r e.1 e.2) r) := by
  induction o with
  | nil =>
    intro r h
    simpa using h
  | cons e t ih =>
    intro r h
    rw [List.foldl_cons]
    exact ih _ (nodup_setProp h _ _)

theorem nodup_spread (o : JSObj) : NodupKeys (spread o) :=
  nodup_foldl_setProp o [] (by simp [NodupKeys, keys])

theorem hasOwn_foldl_setProp (o : JSObj) : ∀ (r : JSObj) (k : String),
    hasOwn (o.foldl (fun r e => setProp r e.1 e.2) r) k = (hasOwn r k || hasOwn o k) := by
  induction o with
  | nil =>
    intro r k
    simp [hasOwn_nil]
  | cons e t ih =>
    intro r k
    rw [List.foldl_cons, ih, hasOwn_setProp, hasOwn_cons]
    cases (e.1 == k) <;> cases hasOwn r k <;> simp

theorem hasOwn_spread (o : JSObj) (k : String) : hasOwn (spread o) k = hasOwn o k := by
  have := hasOwn_foldl_setProp o [] k
  simpa [spread, hasOwn_nil] using this

theorem getOwn_mem {o : JSObj} {k : String} (h : hasOwn o k = true) :
    (k, getOwn o k) ∈ o := by
  induction o with
  | nil => simp [hasOwn_nil] at h
  | cons e t ih =>
    by_cases he : e.1 = k
    · rw [getOwn_cons, if_pos (by simp [he])]
      have : (k, e.2) = e := by
        rw [← he]
      rw [this]
      exact List.mem_cons_self e t
    · rw [getOwn_cons, if_neg (by simp [he])]
      rw [hasOwn_cons] at h
      simp [he] at h
      exact List.mem_cons_of_mem _ (ih h)

/-! ### The store invariant holds in every reachable state -/

theorem storeInv_init : StoreInv FlagStore.init :=
  ⟨by simp [NodupKeys, keys, FlagStore.init], trivial⟩

theorem storeInv_setFlags {s : FlagStore} (h : StoreInv s) (m : JSObj) :
    StoreInv (s.setFlags m) :=
  ⟨nodup_spread m, h.ovWF⟩

theorem storeInv_setOverride {s : FlagStore} (h : StoreInv s) (k : String) (v : JSVal) :
    StoreInv (s.setOverride k v) := by
  refine ⟨h.flagsNodup, ?_⟩
  cases hso : s.flagOverrides with
  | none =>
    simp only [FlagStore.setOverride, hso]
    refine ⟨setProp_ne_nil _ _ _, nodup_setProp (by simp [NodupKeys, keys]) _ _, ?_⟩
    intro e he
    rcases mem_setProp he with he' | he'
    · simp at he'
    · exact ⟨v, by rw [he']⟩
  | some ov =>
    have hw := h.ovWF
    rw [hso] at hw
    obtain ⟨-, hnd, hrec⟩ := hw
    simp only [FlagStore.setOverride, hso]
    refine ⟨setProp_ne_nil _ _ _, nodup_setProp hnd _ _, ?_⟩
    intro e he
    rcases mem_setProp he with he' | he'
    · exact hrec e he'
    · exact ⟨v, by rw [he']⟩

theorem storeInv_removeOverride {s : FlagStore} (h : StoreInv s) (k : String) :
    StoreInv (s.removeOverride k) := by
  unfold FlagStore.removeOverride
  cases hso : s.flagOverrides with
  | none => exact h
  | some ov =>
    have hw := h.ovWF
    rw [hso] at hw
    obtain ⟨hne, hnd, hrec⟩ := hw
    by_cases ht : !truthy (getOwn ov k)
    · simpa [ht] using h
    · simp only [ht, if_false]
      by_cases hz : ((keys (delProp ov k)).length == 0) = true
      · simp only [hz, if_true]
        exact ⟨h.flagsNodup, trivial⟩
      · simp only [hz, if_false]
        refine ⟨h.flagsNodup, ?_, nodup_delProp hnd k, fun e he => hrec e (mem_delProp he)⟩
        exact fun hnil => hz ((delProp_ne_nil_iff ov k).mpr hnil)

theorem storeInv_clearAllOverrides {s : FlagStore} (h : StoreInv s) :
    StoreInv (s.clearAllOverrides).2 := by
  unfold FlagStore.clearAllOverrides
  cases hso : s.flagOverrides with
  | none => exact h
  | some ov => exact ⟨h.flagsNodup, trivial⟩

theorem reachable_storeInv {s : FlagStore} (h : Reachable s) : StoreInv s := by
  induction h with
  | init => exact storeInv_init
  | setFlags s m _ ih => exact storeInv_setFlags ih m
  | setOverride s k v _ ih => exact storeInv_setOverride ih k v
  | removeOverride s k _ ih => exact storeInv_removeOverride ih k
  | clearAllOverrides s _ ih => exact storeInv_clearAllOverrides ih

/-- In a reachable state, every installed override record is a `{ value }`
wrapper object, hence truthy: the presence of an override suffices for it
to win in `get`, whatever value it wraps. -/
theorem override_record_shape {s : FlagStore} (h : StoreInv s) {ov : JSObj}
    (hso : s.flagOverrides = some ov) {k : String} (hk : hasOwn ov k = true) :
    ∃ v, getOwn ov k = JSVal.object [("value", v)] := by
  have hw := h.ovWF
  rw [hso] at hw
  obtain ⟨-, -, hrec⟩ := hw
  exact hrec (k, getOwn ov k) (getOwn_mem hk)

/-! ### Characterisation of `getFlagsWithOverrides` -/

theorem hasOwn_foldl_addResolved (s : FlagStore) (es : JSObj) : ∀ (r : JSObj) (k : String),
    hasOwn (es.foldl (addResolved s) r) k =
      ((hasOwn es k && truthy (s.get k)) || hasOwn r k) := by
  induction es with
  | nil =>
    intro r k
    simp [hasOwn_nil]
  | cons e t ih =>
    intro r k
    rw [List.foldl_cons, ih, hasOwn_cons]
    simp only [addResolved]
    by_cases he : e.1 = k
    · subst he
      cases ht : truthy (s.get e.1)
      · simp [ht]
      · simp [ht, hasOwn_setProp]
    · have hek : (e.1 == k) = false := by simp [he]
      cases ht : truthy (s.get e.1)
      · simp [hek, ht]
      · simp [hek, ht, hasOwn_setProp]

theorem getOwn_foldl_addResolved (s : FlagStore) (es : JSObj) : ∀ (r : JSObj) (k : String),
    getOwn (es.foldl (addResolved s) r) k =
      if hasOwn es k && truthy (s.get k) then s.get k else getOwn r k := by
  induction es with
  | nil =>
    intro r k
    simp [hasOwn_nil]
  | cons e t ih =>
    intro r k
    rw [List.foldl_cons, ih]
    simp only [addResolved]
    by_cases he : e.1 = k
    · subst he
      cases ht : truthy (s.get e.1)
      · simp [ht, hasOwn_cons]
      · by_cases htk : hasOwn t e.1 = true <;>
          simp [ht, htk, hasOwn_cons, getOwn_setProp]
    · have hek : (e.1 == k) = false := by simp [he]
      cases ht : truthy (s.get e.1) <;>
        simp [hek, ht, hasOwn_cons, getOwn_setProp]

theorem nodup_foldl_addResolved (s : FlagStore) (es : JSObj) : ∀ r : JSObj, NodupKeys r →
    NodupKeys (es.foldl (addResolved s) r) := by
  induction es with
  | nil =>
    intro r h
    simpa using h
  | cons e t ih =>
    intro r h
    rw [List.foldl_cons]
    apply ih
    simp only [addResolved]
    split
    · exact nodup_setProp h _ _
    · exact h

theorem hasOwn_getFlagsWithOverrides (s : FlagStore) (k : String) :
    hasOwn s.getFlagsWithOverrides k =
      ((hasOwn s.flags k || ovHas s k) && truthy (s.get k)) := by
  cases hso : s.flagOverrides with
  | none =>
    simp only [FlagStore.getFlagsWithOverrides, ovHas, hso]
    rw [hasOwn_foldl_addResolved]
    cases h1 : hasOwn s.flags k <;> cases h3 : truthy (s.get k) <;> simp [hasOwn_nil]
  | some ov =>
    simp only [FlagStore.getFlagsWithOverrides, ovHas, hso]
    rw [hasOwn_foldl_addResolved, hasOwn_foldl_addResolved]
    cases h1 : hasOwn s.flags k <;> cases h2 : hasOwn ov k <;>
      cases h3 : truthy (s.get k) <;> simp [hasOwn_nil]

theorem getOwn_getFlagsWithOverrides (s : FlagStore) (k : String) :
    getOwn s.getFlagsWithOverrides k =
      if (hasOwn s.flags k || ovHas s k) && truthy (s.get k) then s.get k
      else .undefined := by
  cases hso : s.flagOverrides with
  | none =>
    simp only [FlagStore.getFlagsWithOverrides, ovHas, hso]
    rw [getOwn_foldl_addResolved]
    cases h1 : hasOwn s.flags k <;> cases h3 : truthy (s.get k) <;> simp [getOwn_nil]
  | some ov =>
    simp only [FlagStore.getFlagsWithOverrides, ovHas, hso]
    rw [getOwn_foldl_addResolved, getOwn_foldl_addResolved]
    cases h1 : hasOwn s.flags k <;> cases h2 : hasOwn ov k <;>
      cases h3 : truthy (s.get k) <;> simp [getOwn_nil]

theorem nodup_getFlagsWithOverrides (s : FlagStore) :
    NodupKeys s.getFlagsWithOverrides := by
  cases hso : s.flagOverrides with
  | none =>
    simp only [FlagStore.getFlagsWithOverrides, hso]
    exact nodup_foldl_addResolved s _ _ (by simp [NodupKeys, keys])
  | some ov =>
    simp only [FlagStore.getFlagsWithOverrides, hso]
    exact nodup_foldl_addResolved s _ _
      (nodup_foldl_addResolved s _ _ (by simp [NodupKeys, keys]))

/-! ### Small facts about `get` -/

theorem get_none_eq (s : FlagStore) (hso : s.flagOverrides = none) (k : String) :
    s.get k = realLookup s.flags k := by
  simp only [FlagStore.get, hso]

theorem get_some_eq (s : FlagStore) (ov : JSObj) (hso : s.flagOverrides = some ov)
    (k : String) :
    s.get k = if hasOwn ov k && truthy (getOwn ov k) then getOwn ov k
      else realLookup s.flags k := by
  simp only [FlagStore.get, hso]

theorem realLookup_null_or_truthy (flags : JSObj) (k : String) :
    realLookup flags k = JSVal.null ∨ truthy (realLookup flags k) = true := by
  unfold realLookup
  split
  · rename_i h
    simp only [Bool.and_eq_true] at h
    exact Or.inr h.1.2
  · exact Or.inl rfl

theorem get_null_or_truthy (s : FlagStore) (k : String) :
    s.get k = JSVal.null ∨ truthy (s.get k) = true := by
  cases hso : s.flagOverrides with
  | none =>
    rw [get_none_eq s hso]
    exact realLookup_null_or_truthy s.flags k
  | some ov =>
    rw [get_some_eq s ov hso k]
    by_cases hc : (hasOwn ov k && truthy (getOwn ov k)) = true
    · rw [if_pos hc]
      rw [Bool.and_eq_true] at hc
      exact Or.inr hc.2
    · rw [if_neg hc]
      exact realLookup_null_or_truthy s.flags k

theorem get_eq_realLookup_of_ovMiss {s : FlagStore} {k : String} (h : OvMiss s k) :
    s.get k = realLookup s.flags k := by
  cases hso : s.flagOverrides with
  | none => exact get_none_eq s hso k
  | some ov =>
    rw [get_some_eq s ov hso k, h ov hso]
    simp

theorem truthy_object (o : List (String × JSVal)) :
    truthy (JSVal.object o) = true := rfl

theorem setOverride_flags (s : FlagStore) (k : String) (v : JSVal) :
    (s.setOverride k v).flags = s.flags := by
  cases hso : s.flagOverrides <;> simp [FlagStore.setOverride, hso]

theorem setOverride_flagOverrides (s : FlagStore) (k : String) (v : JSVal) :
    (s.setOverride k v).flagOverrides =
      some (setProp s.getFlagOverrides k (JSVal.object [("value", v)])) := by
  cases hso : s.flagOverrides <;>
    simp [FlagStore.setOverride, FlagStore.getFlagOverrides, hso]

/-! ### Claim theorems -/

/-- Claim C1: for every key K, `get(K)` returns the OverrideRecord for K when
one is present — installed via `setOverride`, and presence suffices even when
the wrapped value is falsy, because the stored record is the (truthy) object
`{ value }` — otherwise the real FlagRecord for K when present and not marked
deleted, otherwise `null`. `get` is a total function of the state and the
key, so no lookup can fault. -/
theorem C1_get_resolution (s : FlagStore) (k : String) :
    (∀ v : JSVal, (s.setOverride k v).get k = JSVal.object [("value", v)]) ∧
    (OvMiss s k →
      (∀ props : List (String × JSVal),
        hasOwn s.flags k = true →
        getOwn s.flags k = JSVal.object props →
        truthy (getProp (JSVal.object props) "deleted") = false →
        s.get k = JSVal.object props) ∧
      (hasOwn s.flags k = false → s.get k = JSVal.null) ∧
      (truthy (getProp (getOwn s.flags k) "deleted") = true → s.get k = JSVal.null)) := by
  constructor
  · intro v
    rw [get_some_eq _ _ (setOverride_flagOverrides s k v) k]
    rw [hasOwn_setProp, getOwn_setProp]
    simp [truthy_object]
  · intro hm
    rw [get_eq_realLookup_of_ovMiss hm] at *
    refine ⟨?_, ?_, ?_⟩
    · intro props h1 h2 h3
      simp [realLookup, h1, h2, h3, truthy_object]
    · intro h1
      simp [realLookup, h1]
    · intro h3
      simp [realLookup, h3]

/-- Concrete instantiation of the C1 theorem: the live flag resolves, the
tombstoned flag and the unknown key give `null`, and an override wrapping
the falsy value `false` still wins. -/
theorem C1_get_resolution_witness :
    sampleStore.get "a" = JSVal.object [("value", JSVal.number 1)] ∧
    sampleStore.get "b" = JSVal.null ∧
    sampleStore.get "c" = JSVal.null ∧
    (sampleStore.setOverride "c" (JSVal.boolean false)).get "c"
      = JSVal.object [("value", JSVal.boolean false)] := by
  have hma : OvMiss sampleStore "a" := fun ov h => by cases h
  have hmb : OvMiss sampleStore "b" := fun ov h => by cases h
  have hmc : OvMiss sampleStore "c" := fun ov h => by cases h
  refine ⟨?_, ?_, ?_, ?_⟩
  · exact ((C1_get_resolution sampleStore "a").2 hma).1 [("value", JSVal.number 1)] rfl rfl rfl
  · exact ((C1_get_resolution sampleStore "b").2 hmb).2.2 rfl
  · exact ((C1_get_resolution sampleStore "c").2 hmc).2.1 rfl
  · exact (C1_get_resolution sampleStore "c").1 (JSVal.boolean false)

/-- Claim C2 as frozen says the result of `getFlagsWithOverrides` contains
no keys beyond the non-tombstoned real-flag keys and the override-only
keys. This is false: a key whose real record is tombstoned but which also
carries an override is included (it is neither non-tombstoned real nor
override-only). Concretely, with real flags `{a, b(deleted)}` and an
override on `b`, every key of the result would have to be a non-tombstoned
real key or an override-only key — but `b` is in the result while being a
tombstoned real key. -/
theorem C2_counterexample :
    ¬ (∀ k : String,
        hasOwn ((sampleStore.setOverride "b" (JSVal.number 7)).getFlagsWithOverrides) k = true →
        (hasOwn (sampleStore.setOverride "b" (JSVal.number 7)).flags k = true ∧
          truthy (getProp (getOwn (sampleStore.setOverride "b" (JSVal.number 7)).flags k)
            "deleted") = false) ∨
        (ovHas (sampleStore.setOverride "b" (JSVal.number 7)) k = true ∧
          hasOwn (sampleStore.setOverride "b" (JSVal.number 7)).flags k = false)) := by
  intro h
  rcases h "b" rfl with ⟨-, hd⟩ | ⟨-, hf⟩
  · exact absurd hd (by decide)
  · exact absurd hf (by decide)

/-- Claim C2 (amended): `getFlagsWithOverrides` returns a map whose keys
are exactly those K, real or overridden, for which `get(K)` resolves
(truthily) — so every truthy non-tombstoned real key not hidden by a falsy
resolution, every override key including overrides of tombstoned flags,
and nothing else — each exactly once and mapped to `get(K)`; for real
flags `{a: {value:1}, b: {value:2, deleted:true}}` and no overrides the
result is exactly `{a: {value:1}}`. -/
theorem C2_getFlagsWithOverrides_amended :
    (∀ (s : FlagStore) (k : String),
      hasOwn s.getFlagsWithOverrides k =
        ((hasOwn s.flags k || ovHas s k) && truthy (s.get k))) ∧
    (∀ (s : FlagStore) (k : String),
      hasOwn s.getFlagsWithOverrides k = true →
      getOwn s.getFlagsWithOverrides k = s.get k) ∧
    (∀ s : FlagStore, NodupKeys s.getFlagsWithOverrides) ∧
    sampleStore.getFlagsWithOverrides = [("a", JSVal.object [("value", JSVal.number 1)])] := by
  refine ⟨hasOwn_getFlagsWithOverrides, ?_, nodup_getFlagsWithOverrides, rfl⟩
  intro s k h
  rw [hasOwn_getFlagsWithOverrides] at h
  rw [getOwn_getFlagsWithOverrides, if_pos h]

/-- Concrete instantiation of the amended C2 theorem: in the spec's
scenario, the key `a` of the result is mapped to `get("a")`. -/
theorem C2_getFlagsWithOverrides_amended_witness :
    getOwn sampleStore.getFlagsWithOverrides "a" = sampleStore.get "a" :=
  C2_getFlagsWithOverrides_amended.2.1 sampleStore "a" rfl

/-- Claim C10: when a key has a tombstoned real record and also an
override, `getFlagsWithOverrides` includes that key mapped to the override
record (which is also what `get` returns for it). -/
theorem C10_override_forces_tombstoned_key (s : FlagStore) (ov : JSObj) (k : String)
    (hr : Reachable s) (hso : s.flagOverrides = some ov)
    (hreal : hasOwn s.flags k = true)
    (hdel : truthy (getProp (getOwn s.flags k) "deleted") = true)
    (hov : hasOwn ov k = true) :
    hasOwn s.getFlagsWithOverrides k = true ∧
    getOwn s.getFlagsWithOverrides k = getOwn ov k ∧
    s.get k = getOwn ov k := by
  obtain ⟨v, hv⟩ := override_record_shape (reachable_storeInv hr) hso hov
  have htr : truthy (getOwn ov k) = true := by
    rw [hv]
    rfl
  have hget : s.get k = getOwn ov k := by
    rw [get_some_eq s ov hso k, hov, htr]
    simp
  have hmem : hasOwn s.getFlagsWithOverrides k = true := by
    rw [hasOwn_getFlagsWithOverrides, hreal, hget, htr]
    simp
  refine ⟨hmem, ?_, hget⟩
  rw [getOwn_getFlagsWithOverrides, hreal, hget, htr]
  simp

/-- Concrete instantiation of the C10 theorem: with the tombstoned flag `b`
overridden, the full resolved view contains `b` mapped to the override. -/
theorem C10_override_forces_tombstoned_key_witness :
    hasOwn ((sampleStore.setOverride "b" (JSVal.number 7)).getFlagsWithOverrides) "b" = true ∧
    getOwn ((sampleStore.setOverride "b" (JSVal.number 7)).getFlagsWithOverrides) "b"
      = getOwn [("b", JSVal.object [("value", JSVal.number 7)])] "b" ∧
    (sampleStore.setOverride "b" (JSVal.number 7)).get "b"
      = getOwn [("b", JSVal.object [("value", JSVal.number 7)])] "b" :=
  C10_override_forces_tombstoned_key _ _ "b"
    (Reachable.setOverride _ "b" (JSVal.number 7)
      (Reachable.setFlags _ sampleFlags Reachable.init))
    rfl rfl rfl rfl

/-! ### Heap-model lemmas -/

theorem readH_cons (a : Nat) (o : JSObj) (h : List (Nat × JSObj)) (b : Nat) :
    readH ((a, o) :: h) b = if b = a then o else readH h b := by
  by_cases hab : b = a
  · subst hab
    simp [readH, List.find?]
  · have h1 : (a == b) = false := by
      simp
      exact fun hc => hab hc.symm
    simp [readH, List.find?, h1, hab]

theorem deref_cons_ne (n₁ n₂ : Nat) (mem : List (Nat × JSObj)) (fa : Nat) (oa : Option Nat)
    (a : Nat) (o : JSObj) (hf : fa ≠ a) (ho : ∀ b, oa = some b → b ≠ a) :
    HStore.deref ⟨n₁, (a, o) :: mem, fa, oa⟩ = HStore.deref ⟨n₂, mem, fa, oa⟩ := by
  unfold HStore.deref
  congr 1
  · rw [readH_cons, if_neg hf]
  · cases oa with
    | none => rfl
    | some b =>
      simp only [Option.map_some']
      rw [readH_cons, if_neg (ho b rfl)]

theorem getH_eq_of_deref_eq {s₁ s₂ : HStore} (h : s₁.deref = s₂.deref) (k : String) :
    s₁.getH k = s₂.getH k := by
  unfold HStore.getH
  rw [h]

/-- Claim C3 fails as stated: `getFlagOverrides` does not hand back a
defensive copy — when overrides exist it returns the internal override
object itself. Concretely: install an override on `a` (so `get("a")`
returns the override record), obtain the map `getFlagOverrides` returns,
and delete key `a` from that map; the subsequent `get("a")` changes to
`null`, refuting "mutating the returned map leaves the results of all
subsequent get calls unchanged". -/
theorem C3_counterexample :
    aliasDemoStore.getH "a" = JSVal.object [("value", JSVal.number 1)] ∧
    aliasDemoMutated.getH "a" = JSVal.null ∧
    aliasDemoMutated.getH "a" ≠ aliasDemoStore.getH "a" := by
  refine ⟨rfl, rfl, ?_⟩
  intro h
  exact absurd (congrArg valueAsInt h) (by decide)

/-- Claim C3 (amended): `getFlagsWithOverrides` does return a defensive
copy — its result is a freshly allocated object, and however the caller
mutates it (adding, replacing or deleting entries) every subsequent `get`
is unchanged; `getFlagOverrides` returns a fresh empty object when no
overrides exist (mutating that is equally harmless), but when overrides
exist it returns the internal override object itself (the same address),
so mutating it does change subsequent results. -/
theorem C3_defensive_copies_amended :
    (∀ s : HStore, HWF s → ∀ (k key : String) (v : JSVal),
      (((s.getFlagsWithOverridesH).2.callerSet (s.getFlagsWithOverridesH).1 k v).getH key
        = s.getH key) ∧
      (((s.getFlagsWithOverridesH).2.callerDel (s.getFlagsWithOverridesH).1 k).getH key
        = s.getH key)) ∧
    (∀ s : HStore, HWF s → s.overridesAddr = none → ∀ (k key : String) (v : JSVal),
      (((s.getFlagOverridesH).2.callerSet (s.getFlagOverridesH).1 k v).getH key
        = s.getH key) ∧
      (((s.getFlagOverridesH).2.callerDel (s.getFlagOverridesH).1 k).getH key
        = s.getH key)) ∧
    (∀ (s : HStore) (a : Nat), s.overridesAddr = some a →
      (s.getFlagOverridesH).1 = a ∧ (s.getFlagOverridesH).2 = s) := by
  refine ⟨?_, ?_, ?_⟩
  · intro s hwf k key v
    have hfresh : ∀ o : JSObj, HStore.deref ⟨s.next + 1, (s.next, o) :: s.mem,
        s.flagsAddr, s.overridesAddr⟩ = s.deref := by
      intro o
      exact deref_cons_ne _ s.next s.mem _ _ s.next o
        (Nat.ne_of_lt hwf.1) (fun b hb => Nat.ne_of_lt (hwf.2 b hb))
    constructor
    · refine getH_eq_of_deref_eq ?_ key
      show HStore.deref ⟨s.next + 1, (s.next, _) :: (s.next, _) :: s.mem,
        s.flagsAddr, s.overridesAddr⟩ = s.deref
      rw [deref_cons_ne (s.next + 1) (s.next + 1) ((s.next, _) :: s.mem) _ _ s.next _
        (Nat.ne_of_lt hwf.1) (fun b hb => Nat.ne_of_lt (hwf.2 b hb))]
      exact hfresh _
    · refine getH_eq_of_deref_eq ?_ key
      show HStore.deref ⟨s.next + 1, (s.next, _) :: (s.next, _) :: s.mem,
        s.flagsAddr, s.overridesAddr⟩ = s.deref
      rw [deref_cons_ne (s.next + 1) (s.next + 1) ((s.next, _) :: s.mem) _ _ s.next _
        (Nat.ne_of_lt hwf.1) (fun b hb => Nat.ne_of_lt (hwf.2 b hb))]
      exact hfresh _
  · intro s hwf hnone k key v
    have hred : s.getFlagOverridesH = s.alloc [] := by
      simp [HStore.getFlagOverridesH, hnone]
    rw [hred]
    constructor
    · refine getH_eq_of_deref_eq ?_ key
      show HStore.deref ⟨s.next + 1, (s.next, _) :: (s.next, _) :: s.mem,
        s.flagsAddr, s.overridesAddr⟩ = s.deref
      rw [deref_cons_ne (s.next + 1) (s.next + 1) ((s.next, _) :: s.mem) _ _ s.next _
        (Nat.ne_of_lt hwf.1) (fun b hb => Nat.ne_of_lt (hwf.2 b hb))]
      exact deref_cons_ne _ s.next s.mem _ _ s.next _
        (Nat.ne_of_lt hwf.1) (fun b hb => Nat.ne_of_lt (hwf.2 b hb))
    · refine getH_eq_of_deref_eq ?_ key
      show HStore.deref ⟨s.next + 1, (s.next, _) :: (s.next, _) :: s.mem,
        s.flagsAddr, s.overridesAddr⟩ = s.deref
      rw [deref_cons_ne (s.next + 1) (s.next + 1) ((s.next, _) :: s.mem) _ _ s.next _
        (Nat.ne_of_lt hwf.1) (fun b hb => Nat.ne_of_lt (hwf.2 b hb))]
      exact deref_cons_ne _ s.next s.mem _ _ s.next _
        (Nat.ne_of_lt hwf.1) (fun b hb => Nat.ne_of_lt (hwf.2 b hb))
  · intro s a hso
    constructor <;> simp [HStore.getFlagOverridesH, hso]

/-- Concrete instantiation of the amended C3 theorem: mutating the fresh
map returned by `getFlagsWithOverrides` of the override-carrying demo
store leaves `get("a")` unchanged. -/
theorem C3_defensive_copies_amended_witness :
    ((aliasDemoStore.getFlagsWithOverridesH).2.callerSet
        (aliasDemoStore.getFlagsWithOverridesH).1 "x" (JSVal.number 5)).getH "a"
      = aliasDemoStore.getH "a" :=
  (C3_defensive_copies_amended.1 aliasDemoStore
    ⟨by decide, fun a h => by
      injection h with h'
      subst h'
      decide⟩ "x" "a" (JSVal.number 5)).1

theorem removeOverride_flags (s : FlagStore) (k : String) :
    (s.removeOverride k).flags = s.flags := by
  cases hso : s.flagOverrides with
  | none => simp [FlagStore.removeOverride, hso]
  | some ov =>
    simp only [FlagStore.removeOverride, hso]
    split
    · rfl
    · split <;> rfl

theorem clearAllOverrides_flags (s : FlagStore) :
    ((s.clearAllOverrides).2).flags = s.flags := by
  cases hso : s.flagOverrides <;> simp [FlagStore.clearAllOverrides, hso]

/-- Claim C4: `setFlags(M)` wholesale-replaces the real flag map with a
copy of `M`: any key not in `M` with no override resolves to `null`
afterwards (even if it resolved before); a key survives in the real map
exactly when `M` has it; and (in the heap model) the store copies the
caller's object, so mutating `M` after the call leaves the store's real
flag object unchanged. -/
theorem C4_setFlags_replaces :
    (∀ (s : FlagStore) (m : JSObj) (k : String),
      hasOwn m k = false → OvMiss s k → (s.setFlags m).get k = JSVal.null) ∧
    (∀ (s : FlagStore) (m : JSObj) (k : String),
      hasOwn (s.setFlags m).flags k = hasOwn m k) ∧
    (∀ (hs : HStore) (a : Nat), a < hs.next → ∀ (k : String) (v : JSVal),
      readH ((hs.setFlagsH a).callerSet a k v).mem (hs.setFlagsH a).flagsAddr
        = readH (hs.setFlagsH a).mem (hs.setFlagsH a).flagsAddr ∧
      readH ((hs.setFlagsH a).callerDel a k).mem (hs.setFlagsH a).flagsAddr
        = readH (hs.setFlagsH a).mem (hs.setFlagsH a).flagsAddr) := by
  refine ⟨?_, ?_, ?_⟩
  · intro s m k hm hmiss
    have hmiss' : OvMiss (s.setFlags m) k := hmiss
    rw [get_eq_realLookup_of_ovMiss hmiss']
    show realLookup (spread m) k = JSVal.null
    simp [realLookup, hasOwn_spread, hm]
  · intro s m k
    exact hasOwn_spread m k
  · intro hs a ha k v
    have hne : (hs.setFlagsH a).flagsAddr ≠ a := Nat.ne_of_gt ha
    constructor
    · show readH ((a, _) :: (hs.setFlagsH a).mem) (hs.setFlagsH a).flagsAddr = _
      rw [readH_cons, if_neg hne]
    · show readH ((a, _) :: (hs.setFlagsH a).mem) (hs.setFlagsH a).flagsAddr = _
      rw [readH_cons, if_neg hne]

/-- Concrete instantiation of the C4 theorem: after replacing the sample
flags with `{c}`, the previously-resolvable key `a` is gone; and mutating
the caller's object after `setFlags` leaves the store's flag object
untouched in the heap model. -/
theorem C4_setFlags_replaces_witness :
    (sampleStore.setFlags [("c", JSVal.object [("value", JSVal.number 3)])]).get "a"
      = JSVal.null ∧
    readH ((HStore.init.setFlagsH 0).callerSet 0 "x" (JSVal.number 1)).mem
        (HStore.init.setFlagsH 0).flagsAddr
      = readH (HStore.init.setFlagsH 0).mem (HStore.init.setFlagsH 0).flagsAddr :=
  ⟨C4_setFlags_replaces.1 sampleStore _ "a" rfl (fun ov h => by cases h),
   (C4_setFlags_replaces.2.2 HStore.init 0 (by decide) "x" (JSVal.number 1)).1⟩

/-- Claim C5: the two layers are independent — `setFlags` leaves the
override map seen through `getFlagOverrides` unchanged, and each override
mutator leaves the real flag object seen through `getFlags` unchanged. -/
theorem C5_layers_independent :
    (∀ (s : FlagStore) (m : JSObj),
      (s.setFlags m).getFlagOverrides = s.getFlagOverrides) ∧
    (∀ (s : FlagStore) (k : String) (v : JSVal),
      (s.setOverride k v).getFlags = s.getFlags) ∧
    (∀ (s : FlagStore) (k : String),
      (s.removeOverride k).getFlags = s.getFlags) ∧
    (∀ s : FlagStore, ((s.clearAllOverrides).2).getFlags = s.getFlags) :=
  ⟨fun _ _ => rfl, fun s k v => setOverride_flags s k v,
    fun s k => removeOverride_flags s k, fun s => clearAllOverrides_flags s⟩

/-- Claim C6: `clearAllOverrides` never fails (it is a total function),
returns exactly the override map that existed immediately before the call
(the empty map when there were none) as a copy, and afterwards the
override layer is gone: `getFlagOverrides` is empty and every key resolves
through the real-flag branch alone. The final conjunct shows, in the heap
model, that the returned map is a fresh copy: mutating it leaves every
subsequent lookup unchanged. -/
theorem C6_clearAllOverrides (s : FlagStore) (hr : Reachable s) :
    (s.clearAllOverrides).1 = s.getFlagOverrides ∧
    ((s.clearAllOverrides).2).getFlagOverrides = [] ∧
    ((s.clearAllOverrides).2).flagOverrides = none ∧
    (∀ k, ((s.clearAllOverrides).2).get k = realLookup s.flags k) ∧
    (∀ hs : HStore, HWF hs → ∀ (k key : String) (v : JSVal),
      ((hs.clearAllOverridesH).2.callerSet (hs.clearAllOverridesH).1 k v).getH key
        = (hs.clearAllOverridesH).2.getH key) := by
  refine ⟨?_, ?_, ?_, ?_, ?_⟩
  · cases hso : s.flagOverrides with
    | none => simp [FlagStore.clearAllOverrides, FlagStore.getFlagOverrides, hso]
    | some ov =>
      simp only [FlagStore.clearAllOverrides, FlagStore.getFlagOverrides, hso]
      have hw := (reachable_storeInv hr).ovWF
      rw [hso] at hw
      exact spread_eq_of_nodup hw.2.1
  · cases hso : s.flagOverrides <;>
      simp [FlagStore.clearAllOverrides, FlagStore.getFlagOverrides, hso]
  · cases hso : s.flagOverrides <;> simp [FlagStore.clearAllOverrides, hso]
  · intro k
    cases hso : s.flagOverrides with
    | none =>
      simp only [FlagStore.clearAllOverrides, hso]
      exact get_none_eq s hso k
    | some ov =>
      simp only [FlagStore.clearAllOverrides, hso]
      exact get_none_eq _ rfl k
  · intro hs hwf k key v
    cases hov : hs.overridesAddr with
    | none =>
      have hred : hs.clearAllOverridesH = hs.alloc [] := by
        simp [HStore.clearAllOverridesH, hov]
      rw [hred]
      refine getH_eq_of_deref_eq ?_ key
      exact deref_cons_ne (hs.next + 1) (hs.next + 1) ((hs.next, ([] : JSObj)) :: hs.mem)
        hs.flagsAddr hs.overridesAddr hs.next _
        (Nat.ne_of_lt hwf.1) (fun b hb => Nat.ne_of_lt (hwf.2 b hb))
    | some a0 =>
      have hred : hs.clearAllOverridesH =
          (hs.next, ⟨hs.next + 1, (hs.next, spread (readH hs.mem a0)) :: hs.mem,
            hs.flagsAddr, none⟩) := by
        simp [HStore.clearAllOverridesH, hov, HStore.alloc]
      rw [hred]
      refine getH_eq_of_deref_eq ?_ key
      exact deref_cons_ne (hs.next + 1) (hs.next + 1)
        ((hs.next, spread (readH hs.mem a0)) :: hs.mem) hs.flagsAddr none hs.next _
        (Nat.ne_of_lt hwf.1) (fun b hb => nomatch hb)

/-- Concrete instantiation of the C6 theorem on a store with one override:
the cleared map is the prior override map, the overridden key reverts to
its real value, and mutating the returned copy is harmless in the heap
model. -/
theorem C6_clearAllOverrides_witness :
    (((sampleStore.setOverride "a" (JSVal.number 9)).clearAllOverrides).1
      = (sampleStore.setOverride "a" (JSVal.number 9)).getFlagOverrides) ∧
    (((sampleStore.setOverride "a" (JSVal.number 9)).clearAllOverrides).2).get "a"
      = realLookup (sampleStore.setOverride "a" (JSVal.number 9)).flags "a" ∧
    ((aliasDemoStore.clearAllOverridesH).2.callerSet
        (aliasDemoStore.clearAllOverridesH).1 "x" (JSVal.number 2)).getH "a"
      = (aliasDemoStore.clearAllOverridesH).2.getH "a" := by
  have h := C6_clearAllOverrides (sampleStore.setOverride "a" (JSVal.number 9))
    (Reachable.setOverride _ "a" (JSVal.number 9)
      (Reachable.setFlags _ sampleFlags Reachable.init))
  exact ⟨h.1, h.2.2.2.1 "a",
    h.2.2.2.2 aliasDemoStore
      ⟨by decide, fun a ha => by
        injection ha with ha'
        subst ha'
        decide⟩ "x" "a" (JSVal.number 2)⟩

theorem get_after_set_remove (s : FlagStore) (k : String) (v : JSVal) :
    ((s.setOverride k v).removeOverride k).get k = realLookup s.flags k := by
  have hov1 := setOverride_flagOverrides s k v
  have hfl1 := setOverride_flags s k v
  have htr : truthy (getOwn (setProp s.getFlagOverrides k (JSVal.object [("value", v)])) k)
      = true := by
    rw [getOwn_setProp]
    simp [truthy_object]
  simp only [FlagStore.removeOverride, hov1]
  split
  · rename_i hcond
    rw [htr] at hcond
    simp at hcond
  · split
    · rw [get_none_eq _ rfl k]
      show realLookup (s.setOverride k v).flags k = realLookup s.flags k
      rw [hfl1]
    · rw [get_some_eq _ (delProp (setProp s.getFlagOverrides k (JSVal.object [("value", v)])) k)
        rfl k]
      rw [hasOwn_delProp]
      simp only [bne_self_eq_false, Bool.false_and, Bool.false_eq_true, if_false]
      show realLookup (s.setOverride k v).flags k = realLookup s.flags k
      rw [hfl1]

/-- Claim C7 fails as stated: when K already carried an override before the
pair of calls, `setOverride(K,V)` overwrites it and `removeOverride(K)`
deletes it, so `get(K)` afterwards returns the real-flag value, not what it
returned before the pair (which was the pre-existing override). Concretely,
with flag `a = {value:1}` overridden to wrap `10`, the pair leaves
`get("a") = {value:1}` while it returned `{value:10}` before. -/
theorem C7_counterexample :
    c7Base.get "a" = JSVal.object [("value", JSVal.number 10)] ∧
    ((c7Base.setOverride "a" (JSVal.number 11)).removeOverride "a").get "a"
      = JSVal.object [("value", JSVal.number 1)] ∧
    ((c7Base.setOverride "a" (JSVal.number 11)).removeOverride "a").get "a"
      ≠ c7Base.get "a" := by
  refine ⟨rfl, rfl, ?_⟩
  intro h
  exact absurd (congrArg valueAsInt h) (by decide)

/-- Claim C7 (amended): `setOverride(K, V)` then `removeOverride(K)` always
restores `get(K)` to the real-flag resolution of K (the real value, or null
when none resolves); this equals what `get(K)` returned before the pair
whenever K was not already overridden. `removeOverride` on a key with no
override is a strict no-op: the state is unchanged. -/
theorem C7_override_roundtrip_amended :
    (∀ (s : FlagStore) (k : String) (v : JSVal),
      ((s.setOverride k v).removeOverride k).get k = realLookup s.flags k) ∧
    (∀ (s : FlagStore) (k : String) (v : JSVal),
      (∀ ov, s.flagOverrides = some ov → hasOwn ov k = false) →
      s.get k = realLookup s.flags k ∧
      ((s.setOverride k v).removeOverride k).get k = s.get k) ∧
    (∀ (s : FlagStore) (k : String),
      (∀ ov, s.flagOverrides = some ov → hasOwn ov k = false) →
      s.removeOverride k = s) := by
  refine ⟨fun s k v => get_after_set_remove s k v, ?_, ?_⟩
  · intro s k v hno
    have hmiss : OvMiss s k := fun ov h => by rw [hno ov h, Bool.false_and]
    have h1 := get_eq_realLookup_of_ovMiss hmiss
    exact ⟨h1, by rw [get_after_set_remove, h1]⟩
  · intro s k hno
    cases hso : s.flagOverrides with
    | none => simp [FlagStore.removeOverride, hso]
    | some ov =>
      have ht : truthy (getOwn ov k) = false := by
        rw [getOwn_eq_undefined_of_hasOwn_false (hno ov hso)]
        rfl
      simp [FlagStore.removeOverride, hso, ht]

/-- Concrete instantiation of the amended C7 theorem on the sample store
(no prior override on `a`): the pair of calls round-trips `get("a")`, and
removing a nonexistent override changes nothing. -/
theorem C7_override_roundtrip_amended_witness :
    sampleStore.get "a" = realLookup sampleStore.flags "a" ∧
    ((sampleStore.setOverride "a" (JSVal.number 5)).removeOverride "a").get "a"
      = sampleStore.get "a" ∧
    sampleStore.removeOverride "nonexistent" = sampleStore :=
  ⟨(C7_override_roundtrip_amended.2.1 sampleStore "a" (JSVal.number 5)
      (fun ov h => by cases h)).1,
   (C7_override_roundtrip_amended.2.1 sampleStore "a" (JSVal.number 5)
      (fun ov h => by cases h)).2,
   C7_override_roundtrip_amended.2.2 sampleStore "nonexistent" (fun ov h => by cases h)⟩

/-! ### Observational equivalence helpers (absent vs. empty overrides) -/

theorem get_eq_obs (s : FlagStore) (k : String) :
    s.get k = if hasOwn s.getFlagOverrides k && truthy (getOwn s.getFlagOverrides k)
      then getOwn s.getFlagOverrides k else realLookup s.flags k := by
  cases hso : s.flagOverrides with
  | none =>
    rw [get_none_eq s hso]
    simp [FlagStore.getFlagOverrides, hso, hasOwn_nil]
  | some ov =>
    rw [get_some_eq s ov hso k]
    simp [FlagStore.getFlagOverrides, hso]

theorem gfwo_obs (s : FlagStore) :
    s.getFlagsWithOverrides =
      (s.getFlagOverrides).foldl (addResolved s) (s.flags.foldl (addResolved s) []) := by
  cases hso : s.flagOverrides <;>
    simp [FlagStore.getFlagsWithOverrides, FlagStore.getFlagOverrides, hso]

theorem getFlagOverrides_setOverride (s : FlagStore) (k : String) (v : JSVal) :
    (s.setOverride k v).getFlagOverrides
      = setProp s.getFlagOverrides k (JSVal.object [("value", v)]) := by
  have h := setOverride_flagOverrides s k v
  simp [FlagStore.getFlagOverrides, h]

theorem getFlagOverrides_removeOverride (s : FlagStore) (k : String) :
    (s.removeOverride k).getFlagOverrides =
      if truthy (getOwn s.getFlagOverrides k) then delProp s.getFlagOverrides k
      else s.getFlagOverrides := by
  cases hso : s.flagOverrides with
  | none =>
    simp [FlagStore.removeOverride, FlagStore.getFlagOverrides, hso, getOwn_nil, truthy,
      delProp]
  | some ov =>
    have hgo : s.getFlagOverrides = ov := by
      simp [FlagStore.getFlagOverrides, hso]
    rw [hgo]
    simp only [FlagStore.removeOverride, hso]
    by_cases ht : truthy (getOwn ov k) = true
    · rw [if_pos ht, ht]
      simp only [Bool.not_true, Bool.false_eq_true, if_false]
      by_cases hz : ((keys (delProp ov k)).length == 0) = true
      · rw [if_pos hz, (delProp_ne_nil_iff ov k).mp hz]
        simp [FlagStore.getFlagOverrides]
      · rw [if_neg hz]
        simp [FlagStore.getFlagOverrides]
    · have hb : truthy (getOwn ov k) = false := by
        cases hb : truthy (getOwn ov k)
        · rfl
        · exact absurd hb ht
      rw [if_neg ht]
      simp [hb, FlagStore.getFlagOverrides, hso]

theorem clearAllOverrides_fst (s : FlagStore) :
    (s.clearAllOverrides).1 = spread s.getFlagOverrides := by
  cases hso : s.flagOverrides <;>
    simp [FlagStore.clearAllOverrides, FlagStore.getFlagOverrides, hso, spread]

theorem getFlagOverrides_clearAllOverrides (s : FlagStore) :
    ((s.clearAllOverrides).2).getFlagOverrides = [] := by
  cases hso : s.flagOverrides <;>
    simp [FlagStore.clearAllOverrides, FlagStore.getFlagOverrides, hso]

/-- Claim C8: in every reachable state the internal override map is either
absent or non-empty (removing the last override or clearing returns it to
the absent initial state); `getFlagOverrides` returns an empty map exactly
when the map is absent; and the absent/empty distinction is behaviorally
invisible — any two states agreeing on the flags object and on the
observed override map (in particular `⟨flags, undefined⟩` versus
`⟨flags, {}⟩`, which `ObsEquiv` relates) give equal outputs under every
read operation and observationally equivalent successors under every
mutator. -/
theorem C8_lazy_override_map :
    (∀ s : FlagStore, Reachable s →
      s.flagOverrides = none ∨ ∃ ov, s.flagOverrides = some ov ∧ ov ≠ []) ∧
    (∀ s : FlagStore, Reachable s →
      (s.getFlagOverrides = [] ↔ s.flagOverrides = none)) ∧
    (∀ s₁ s₂ : FlagStore, ObsEquiv s₁ s₂ →
      (∀ k, s₁.get k = s₂.get k) ∧
      s₁.getFlagsWithOverrides = s₂.getFlagsWithOverrides ∧
      s₁.getFlags = s₂.getFlags ∧
      s₁.getFlagOverrides = s₂.getFlagOverrides ∧
      (∀ k v, ObsEquiv (s₁.setOverride k v) (s₂.setOverride k v)) ∧
      (∀ m, ObsEquiv (s₁.setFlags m) (s₂.setFlags m)) ∧
      (∀ k, ObsEquiv (s₁.removeOverride k) (s₂.removeOverride k)) ∧
      (s₁.clearAllOverrides).1 = (s₂.clearAllOverrides).1 ∧
      ObsEquiv (s₁.clearAllOverrides).2 (s₂.clearAllOverrides).2) := by
  refine ⟨?_, ?_, ?_⟩
  · intro s hr
    have hw := (reachable_storeInv hr).ovWF
    cases hso : s.flagOverrides with
    | none => exact Or.inl rfl
    | some ov =>
      rw [hso] at hw
      exact Or.inr ⟨ov, rfl, hw.1⟩
  · intro s hr
    have hw := (reachable_storeInv hr).ovWF
    cases hso : s.flagOverrides with
    | none => simp [FlagStore.getFlagOverrides, hso]
    | some ov =>
      rw [hso] at hw
      simp [FlagStore.getFlagOverrides, hso]
      exact hw.1
  · intro s₁ s₂ h
    obtain ⟨hf, hov⟩ := h
    have hget : ∀ k, s₁.get k = s₂.get k := by
      intro k
      rw [get_eq_obs s₁ k, get_eq_obs s₂ k, hf, hov]
    have haddR : addResolved s₁ = addResolved s₂ := by
      funext r e
      simp only [addResolved, hget e.1]
    refine ⟨hget, ?_, hf, hov, ?_, ?_, ?_, ?_, ?_⟩
    · rw [gfwo_obs s₁, gfwo_obs s₂, hf, hov, haddR]
    · intro k v
      constructor
      · show (s₁.setOverride k v).flags = (s₂.setOverride k v).flags
        rw [setOverride_flags, setOverride_flags, hf]
      · rw [getFlagOverrides_setOverride, getFlagOverrides_setOverride, hov]
    · intro m
      exact ⟨rfl, hov⟩
    · intro k
      constructor
      · show (s₁.removeOverride k).flags = (s₂.removeOverride k).flags
        rw [removeOverride_flags, removeOverride_flags, hf]
      · rw [getFlagOverrides_removeOverride, getFlagOverrides_removeOverride, hov]
    · rw [clearAllOverrides_fst, clearAllOverrides_fst, hov]
    · constructor
      · show ((s₁.clearAllOverrides).2).flags = ((s₂.clearAllOverrides).2).flags
        rw [clearAllOverrides_flags, clearAllOverrides_flags, hf]
      · rw [getFlagOverrides_clearAllOverrides, getFlagOverrides_clearAllOverrides]

/-- Concrete instantiation of the C8 theorem: the sample store satisfies
the absent-or-non-empty invariant, and a store with an absent override map
is indistinguishable from the same store with an empty one under `get` and
`getFlagsWithOverrides`. -/
theorem C8_lazy_override_map_witness :
    (sampleStore.flagOverrides = none ∨
      ∃ ov, sampleStore.flagOverrides = some ov ∧ ov ≠ []) ∧
    (FlagStore.mk sampleFlags none).get "a" = (FlagStore.mk sampleFlags (some [])).get "a" ∧
    (FlagStore.mk sampleFlags none).getFlagsWithOverrides
      = (FlagStore.mk sampleFlags (some [])).getFlagsWithOverrides :=
  ⟨C8_lazy_override_map.1 sampleStore (Reachable.setFlags _ sampleFlags Reachable.init),
   (C8_lazy_override_map.2.2 _ _ ⟨rfl, rfl⟩).1 "a",
   (C8_lazy_override_map.2.2 _ _ ⟨rfl, rfl⟩).2.1⟩

/-- Claim C9: lookups are total and fault-free — the result of `get` is
either `null` (the normal not-found outcome, produced alike for unknown
keys, tombstoned records and falsy malformed records) or a truthy record;
`setFlags` accepts any object without validation, and a falsy record
stored under a key is silently treated as absent by `get`'s
deleted/truthiness check. -/
theorem C9_total_lookup :
    (∀ (s : FlagStore) (k : String), OvMiss s k →
      (hasOwn s.flags k = false ∨ truthy (getOwn s.flags k) = false ∨
        truthy (getProp (getOwn s.flags k) "deleted") = true) →
      s.get k = JSVal.null) ∧
    (∀ (s : FlagStore) (k : String), s.get k = JSVal.null ∨ truthy (s.get k) = true) ∧
    (∀ (s : FlagStore) (m : JSObj) (k : String), NodupKeys m → OvMiss s k →
      truthy (getOwn m k) = false → (s.setFlags m).get k = JSVal.null) := by
  refine ⟨?_, get_null_or_truthy, ?_⟩
  · intro s k hmiss hcase
    rw [get_eq_realLookup_of_ovMiss hmiss]
    rcases hcase with h | h | h
    · simp [realLookup, h]
    · simp [realLookup, h]
    · simp [realLookup, h]
  · intro s m k hnd hmiss ht
    have hmiss' : OvMiss (s.setFlags m) k := hmiss
    rw [get_eq_realLookup_of_ovMiss hmiss']
    show realLookup (spread m) k = JSVal.null
    rw [spread_eq_of_nodup hnd]
    simp [realLookup, ht]

/-- Concrete instantiation of the C9 theorem: a malformed (falsy) record
accepted by `setFlags` reads back as `null`, and an unknown key reads as
`null`. -/
theorem C9_total_lookup_witness :
    (FlagStore.init.setFlags [("bad", JSVal.number 0)]).get "bad" = JSVal.null ∧
    sampleStore.get "nope" = JSVal.null :=
  ⟨C9_total_lookup.2.2 FlagStore.init [("bad", JSVal.number 0)] "bad"
      (by simp [NodupKeys, keys]) (fun ov h => by cases h) rfl,
   C9_total_lookup.1 sampleStore "nope" (fun ov h => by cases h) (Or.inl rfl)⟩

end FlagStoreSpec
